import Mathlib

/-!
# Verification of the 1BRC-style aggregation pipeline (`src/main.rs`)

Shallow embedding of the program: bytes are natural numbers, byte slices
are `List Nat`, Rust's fallible functions return `Option`.  Machine
integers: all temperatures produced by the decoder lie in `[-999, 999]`,
far inside `i16`, and `min`/`max` are order operations, so the `i16`
fields are plain `Int`; the `u32` observation counter is modelled with
its release-mode wrap-around (`% 2^32` on every addition), which is
reachable for a large (tens of gigabytes) but addressable input; the
`i64` sum would need on the order of `10^16` observations to wrap, far
beyond any addressable input, and stays a plain `Int`.
-/

namespace BRC

/-- A byte, as a natural number `0..255`. -/
abbrev Byte := Nat

/-- A station name: a raw byte sequence. -/
abbrev Station := List Byte

/-- `memchr(needle, hay)`: index of the first occurrence of `needle`. -/
def memchr (needle : Byte) : List Byte → Option Nat
  | [] => none
  | b :: rest => if b = needle then some 0 else (memchr needle rest).map (· + 1)

/-- `b'0'..=b'9'` range test used by the patterns in `parse_number`. -/
def isDigit (b : Byte) : Bool := 48 ≤ b && b ≤ 57

/-- Body of `parse_number`: the `match` over `data[usize::from(negative)..]`.
The two slice patterns `[ones, b'.', decimal]` and
`[tens, ones, b'.', decimal]` with digit-range bindings; every other shape
is `bail!("invalid number format")`.  The multiplier
`i16::from(negative) * 2 - 1` is transcribed literally. -/
def parse_number_tail (negative : Bool) (rest : List Byte) : Option Int :=
  match rest with
  | [ones, 46, decimal] =>
    if isDigit ones && isDigit decimal then
      some ((((ones : Int) - 48) * 10 + ((decimal : Int) - 48)) *
        ((if negative then (1 : Int) else 0) * 2 - 1))
    else none
  | [tens, ones, 46, decimal] =>
    if isDigit tens && isDigit ones && isDigit decimal then
      some ((((tens : Int) - 48) * 100 + ((ones : Int) - 48) * 10 + ((decimal : Int) - 48)) *
        ((if negative then (1 : Int) else 0) * 2 - 1))
    else none
  | _ => none

/-- `fn parse_number(data: &[u8]) -> Result<i16>` from `src/main.rs`.
`negative` is `data.first() == Some(&b'-')`; the tail is
`data[usize::from(negative)..]`. -/
def parse_number (data : List Byte) : Option Int :=
  let negative : Bool := data.head? == some 45
  parse_number_tail negative (data.drop (if negative then 1 else 0))

/-- `parse_number` with the bounds check of the Rust slice indexing
`data[usize::from(negative)..]` made explicit: range indexing panics when
the start exceeds the slice length, and the outer `none` models that
panic. -/
def parse_number_run (data : List Byte) : Option (Option Int) :=
  let negative : Bool := data.head? == some 45
  if (if negative then 1 else 0) ≤ data.length then
    some (parse_number_tail negative (data.drop (if negative then 1 else 0)))
  else none

/-- The digit/point part of the accepted surface grammar, from the
spec's words: one or two ASCII digits, a `.`, then exactly one ASCII
digit. -/
def specShapeBody (rest : List Byte) : Bool :=
  match rest with
  | [a, 46, c] => isDigit a && isDigit c
  | [a, b, 46, d] => isDigit a && isDigit b && isDigit d
  | _ => false

/-- The accepted surface grammar, written from the spec's words: an
optional leading `-`, then one or two ASCII digits, then `.`, then
exactly one ASCII digit.  (When the first byte is `-` the sign is
consumed; a `-` can never satisfy the digit positions of the body, so
this `if` is equivalent to the optional-sign phrasing.) -/
def specShape (data : List Byte) : Bool :=
  if data.head? == some 45 then specShapeBody (data.drop 1) else specShapeBody data

/-- `struct Stat { min: i16, max: i16, total: i64, count: u32 }`. -/
structure Stat where
  min : Int
  max : Int
  total : Int
  count : Nat
deriving DecidableEq, Repr

/-- `Stat::new`. -/
def Stat.new (num : Int) : Stat := ⟨num, num, num, 1⟩

/-- `Stat::update` (the `&mut self` mutation, as a pure function).  The
`self.count += 1` is a `u32` addition, which wraps at `2^32` in release
builds, hence the `% 2^32`. -/
def Stat.update (s : Stat) (num : Int) : Stat :=
  ⟨Min.min s.min num, Max.max s.max num, s.total + num, (s.count + 1) % 4294967296⟩

/-- `Stat::merge` (the `&mut self` mutation, as a pure function).  The
`self.count += other.count` is a `u32` addition, which wraps at `2^32`
in release builds, hence the `% 2^32`. -/
def Stat.merge (s : Stat) (other : Stat) : Stat :=
  ⟨Min.min s.min other.min, Max.max s.max other.max,
    s.total + other.total, (s.count + other.count) % 4294967296⟩

/-- The loop of `fn chunk_data`, recursing on the remaining number of
chunks the loop may still push (`parts.get() - 1 - chunks.len()`).  The
loop condition order matches the source: count guard, `data.len() > jump`,
then the `memchr` let-guard; afterwards `chunks.push(data)`. -/
def chunk_go (jump : Nat) (needle : Byte) : Nat → List Byte → List (List Byte)
  | 0, data => [data]
  | r + 1, data =>
    if jump < data.length then
      match memchr needle (data.drop jump) with
      | some offset =>
        data.take (jump + offset + 1) :: chunk_go jump needle r (data.drop (jump + offset + 1))
      | none => [data]
    else [data]

/-- `fn chunk_data(data: &[u8], parts: NonZero<usize>, needle: u8)`. -/
def chunk_data (data : List Byte) (parts : Nat) (needle : Byte) : List (List Byte) :=
  chunk_go (data.length / parts) needle (parts - 1) data

/-- A per-range statistics table.  The Rust `HashMap<&[u8], Stat>` is
modelled as an association list with unique keys; lookups agree with the
hash map and iteration order is one admissible order. -/
abbrev Table := List (Station × Stat)

/-- Lookup in a table (`HashMap::get`). -/
def getEntry (t : Table) (k : Station) : Option Stat :=
  match t with
  | [] => none
  | (k', v) :: rest => if k' = k then some v else getEntry rest k

/-- The `match results.get_mut(before)` step of `process_chunk`:
update the existing entry or insert a fresh one. -/
def upsert (t : Table) (k : Station) (num : Int) : Table :=
  match t with
  | [] => [(k, Stat.new num)]
  | (k', v) :: rest =>
    if k' = k then (k', v.update num) :: rest else (k', v) :: upsert rest k num

/-- `memchr` bound, needed for termination of the record loop. -/
theorem memchr_lt_length {needle : Byte} {l : List Byte} {i : Nat}
    (h : memchr needle l = some i) : i < l.length := by
  induction l generalizing i with
  | nil => simp [memchr] at h
  | cons b rest ih =>
    simp only [memchr] at h
    split at h
    · simp only [Option.some.injEq] at h
      simp [← h]
    · simp only [Option.map_eq_some'] at h
      obtain ⟨j, hj, hji⟩ := h
      have := ih hj
      simp only [List.length_cons]
      omega

/-- The `while let Some(idx) = memchr(b'\n', data)` loop of
`fn process_chunk`: split off one line, stop on an empty line, otherwise
require a `;` and a decodable temperature and fold the observation into
the table.  Errors (`None`) model the `context(...)?` / `?` early
returns. -/
def processGo (data : List Byte) (total : Nat) (results : Table) : Option (Nat × Table) :=
  match h : memchr 10 data with
  | none => some (total, results)
  | some idx =>
    let line := data.take idx
    let rest := data.drop (idx + 1)
    if line = [] then some (total, results)
    else
      match memchr 59 line with
      | none => none
      | some j =>
        let before := line.take j
        let after := line.drop (j + 1)
        match parse_number after with
        | none => none
        | some num => processGo rest (total + 1) (upsert results before num)
termination_by data.length
decreasing_by
  have h1 := memchr_lt_length h
  simp only [List.length_drop]
  omega

/-- `fn process_chunk(data: &[u8]) -> Result<(u32, ...)>`; the returned
iterator is modelled by the table itself. -/
def process_chunk (data : List Byte) : Option (Nat × Table) :=
  processGo data 0 []

/-- The `entry(key).and_modify(merge).or_insert(value)` step of
`fn merge_and_sort`. -/
def mergeInto (t : Table) (k : Station) (v : Stat) : Table :=
  match t with
  | [] => [(k, v)]
  | (k', v') :: rest =>
    if k' = k then (k', v'.merge v) :: rest else (k', v') :: mergeInto rest k v

/-- The merging fold of `fn merge_and_sort` over the flattened sequence
of all partial tables' entries. -/
def mergeTables (items : List (Station × Stat)) : Table :=
  items.foldl (fun t p => mergeInto t p.1 p.2) []

/-- Byte-lexicographic strict order on byte strings: the `Ord` instance
of Rust's `&[u8]` that drives `BTreeMap<&[u8], _>` iteration. -/
def byteLexLt : List Byte → List Byte → Bool
  | [], [] => false
  | [], _ :: _ => true
  | _ :: _, [] => false
  | a :: xs, b :: ys => if a < b then true else if b < a then false else byteLexLt xs ys

/-- Insertion step for the sorted rebuild of the merged table
(`BTreeMap::from_iter` sorts by key; keys are unique here). -/
def insertSorted (x : Station × Stat) : Table → Table
  | [] => [x]
  | y :: ys => if byteLexLt x.1 y.1 then x :: y :: ys else y :: insertSorted x ys

/-- Sort a table ascending by key (`BTreeMap::from_iter(..).into_iter()`). -/
def sortByKey (t : Table) : Table := t.foldr insertSorted []

/-- `fn merge_and_sort`, taking the flattened
`flat_map(|(_, v)| v)` stream of entries. -/
def merge_and_sort (items : List (Station × Stat)) : Table :=
  sortByKey (mergeTables items)

/-! ## Report formatting and the stdout of `main` -/

/-- Decimal digit expansion used by the integer `Display` formatting,
with an explicit fuel argument (`n` itself always suffices). -/
def natDecGo (fuel : Nat) (n : Nat) (acc : List Byte) : List Byte :=
  match fuel with
  | 0 => acc
  | fuel + 1 => if n = 0 then acc else natDecGo fuel (n / 10) ((48 + n % 10) :: acc)

/-- Decimal rendering of a natural number, as bytes. -/
def natDec (n : Nat) : List Byte :=
  if n = 0 then [48] else natDecGo n n []

/-- One-fractional-digit rendering of a tenths value `m`, i.e. the
`{:.1}` rendering of `m as f32 / 10.`; exact because `|m| ≤ 999` makes
the float computation faithful to the rational value. -/
def fmtTenths (m : Int) : List Byte :=
  (if m < 0 then [45] else []) ++ natDec (m.natAbs / 10) ++ [46] ++ [48 + m.natAbs % 10]

/-- The mean in tenths: `(self.total as f32 / self.count as f32).round()`.
Modelled by exact rational rounding half away from zero, which is what
`f32::round` computes whenever the division is exact; the claims proved
below never depend on the value of this field. -/
def roundHalfAway (t : Int) (c : Nat) : Int :=
  if 0 ≤ t then (2 * t + c) / (2 * c) else -((2 * (-t) + c) / (2 * c))

/-- `impl Display for Stat`: `min/avg/max`, each with one fractional
digit; a rounded mean of zero renders as `0.0` (the `-0.0`
normalization), which the integer model produces by construction. -/
def Stat.fmt (s : Stat) : List Byte :=
  fmtTenths s.min ++ [47] ++ fmtTenths (roundHalfAway s.total s.count) ++ [47] ++ fmtTenths s.max

/-- The peekable loop of `fn print`: entries separated by `", "`. -/
def printGo : Table → List Byte
  | [] => []
  | [(station, s)] => station ++ [61] ++ s.fmt
  | (station, s) :: rest => station ++ [61] ++ s.fmt ++ [44, 32] ++ printGo rest

/-- `fn print`: `"{"`, the entries, `"}\n"`, all written to stdout. -/
def printOut (sorted : Table) : List Byte :=
  [123] ++ printGo sorted ++ [125, 10]

/-- `collect::<Result<Vec<_>>>`: sequence a fallible computation over a
list, failing as soon as one element fails. -/
def collect {α β : Type} (f : α → Option β) : List α → Option (List β)
  | [] => some []
  | a :: l =>
    match f a with
    | none => none
    | some b =>
      match collect f l with
      | none => none
      | some bs => some (b :: bs)

/-- The bytes of `"Num stations: "` followed by the count and a newline:
the `println!("Num stations: {}", ...)` in `main`, which writes to
standard output (unlike the `eprintln!` diagnostics, which go to
standard error and are not modelled). -/
def numStationsLine (n : Nat) : List Byte :=
  [78, 117, 109, 32, 115, 116, 97, 116, 105, 111, 110, 115, 58, 32] ++ natDec n ++ [10]

/-- Everything `main` writes to standard output after the input buffer is
mapped: chunk, process every chunk in parallel (`collect::<Result<_>>`
fails if any chunk fails), merge and sort, then the `Num stations`
`println!` followed by `print`.  `none` models an abort before any
stdout write (the `?` propagation in `main`). -/
def mainStdout (data : List Byte) (parts : Nat) : Option (List Byte) :=
  match collect process_chunk (chunk_data data parts 10) with
  | none => none
  | some results =>
    let merged := merge_and_sort ((results.map Prod.snd).flatten)
    some (numStationsLine merged.length ++ printOut merged)

/-! ## Specification-side predicates and observation machinery -/

/-- The observation a single record line yields: the bytes before the
first `;` as the station, the decoded temperature after it.  `none` when
the line has no `;` or the temperature does not decode. -/
def lineObs (l : List Byte) : Option (Station × Int) :=
  match memchr 59 l with
  | none => none
  | some j =>
    match parse_number (l.drop (j + 1)) with
    | none => none
    | some num => some (l.take j, num)

/-- A well-formed record line: non-empty, contains no newline, and
yields an observation. -/
def GoodLine (l : List Byte) : Prop :=
  l ≠ [] ∧ ¬ (10 ∈ l) ∧ (lineObs l).isSome = true

instance : DecidablePred GoodLine := fun l => by
  unfold GoodLine; infer_instance

/-- Concatenate record lines, each terminated by `\n`. -/
def joinLines (lines : List (List Byte)) : List Byte :=
  (lines.map (· ++ [10])).flatten

/-- A well-formed input buffer: newline-terminated good record lines,
followed by blank lines only (`m` trailing newlines). -/
def WF (data : List Byte) : Prop :=
  ∃ lines m, (∀ l ∈ lines, GoodLine l) ∧
    data = joinLines lines ++ List.replicate m 10

/-- All observations of a list of record lines. -/
def obsList (lines : List (List Byte)) : List (Station × Int) :=
  lines.filterMap lineObs

/-- Fold a list of observations into a table by `upsert`. -/
def foldUp (t : Table) (obs : List (Station × Int)) : Table :=
  obs.foldl (fun t p => upsert t p.1 p.2) t

/-- The values attached to key `k`, in order. -/
def valsFor {β : Type} (k : Station) (l : List (Station × β)) : List β :=
  l.filterMap (fun p => if p.1 = k then some p.2 else none)

/-- Per-key effect of one `upsert`. -/
def updStep (o : Option Stat) (v : Int) : Option Stat :=
  some (match o with | none => Stat.new v | some s => s.update v)

/-- Merge of two optional statistics, `none` acting as identity. -/
def optMerge : Option Stat → Option Stat → Option Stat
  | none, b => b
  | a, none => a
  | some x, some y => some (x.merge y)

/-- Per-key effect of one `mergeInto`. -/
def optMergeStep (o : Option Stat) (v : Stat) : Option Stat :=
  optMerge o (some v)

/-- The statistics aggregated from a list of values of one station. -/
def statOfv (vs : List Int) : Option Stat := vs.foldl updStep none

/-- The invariant of claim C8: an entry that summarizes the (non-empty)
list `obs` of values actually observed for its station. -/
def ObservedBy (s : Stat) (obs : List Int) : Prop :=
  1 ≤ s.count ∧ s.min ≤ s.max ∧ s.min ∈ obs ∧ s.max ∈ obs

/-- Non-strict key order on table entries (`¬ (b.key < a.key)`). -/
def keyLe (a b : Station × Stat) : Prop := byteLexLt b.1 a.1 = false

/-- Strict key order on table entries. -/
def keyLt (a b : Station × Stat) : Prop := byteLexLt a.1 b.1 = true

/-! ## Algebra of `Stat.merge` and its `Option` lifting -/

theorem Stat.merge_comm (a b : Stat) : a.merge b = b.merge a := by
  simp only [Stat.merge, Stat.mk.injEq]
  exact ⟨min_comm _ _, max_comm _ _, add_comm _ _, by rw [Nat.add_comm]⟩

theorem Stat.merge_assoc (a b c : Stat) : (a.merge b).merge c = a.merge (b.merge c) := by
  simp only [Stat.merge, Stat.mk.injEq]
  exact ⟨min_assoc _ _ _, max_assoc _ _ _, add_assoc _ _ _, by omega⟩

theorem Stat.update_eq_merge_new (s : Stat) (v : Int) : s.update v = s.merge (Stat.new v) := rfl

theorem Stat.merge_update (s a : Stat) (v : Int) :
    (s.merge a).update v = s.merge (a.update v) := by
  simp only [Stat.update, Stat.merge, Stat.mk.injEq]
  exact ⟨min_assoc _ _ _, max_assoc _ _ _, add_assoc _ _ _, by omega⟩

@[simp] theorem optMerge_none_left (b : Option Stat) : optMerge none b = b := by
  cases b <;> rfl

@[simp] theorem optMerge_none_right (a : Option Stat) : optMerge a none = a := by
  cases a <;> rfl

theorem optMerge_assoc (a b c : Option Stat) :
    optMerge (optMerge a b) c = optMerge a (optMerge b c) := by
  cases a <;> cases b <;> cases c <;> simp [optMerge, Stat.merge_assoc]

theorem optMerge_comm (a b : Option Stat) : optMerge a b = optMerge b a := by
  cases a <;> cases b <;> simp [optMerge, Stat.merge_comm]

theorem updStep_optMerge (a b : Option Stat) (v : Int) :
    updStep (optMerge a b) v = optMerge a (updStep b v) := by
  cases a <;> cases b <;>
    simp [updStep, optMerge, Stat.update_eq_merge_new, Stat.merge_update, Stat.merge_assoc]

theorem foldl_updStep_optMerge (vs : List Int) (a b : Option Stat) :
    vs.foldl updStep (optMerge a b) = optMerge a (vs.foldl updStep b) := by
  induction vs generalizing b with
  | nil => rfl
  | cons v vs ih => simp only [List.foldl_cons, updStep_optMerge, ih]

theorem statOfv_append (vs ws : List Int) :
    statOfv (vs ++ ws) = optMerge (statOfv vs) (statOfv ws) := by
  simp only [statOfv, List.foldl_append]
  have h2 := foldl_updStep_optMerge ws (vs.foldl updStep none) none
  simpa [statOfv] using h2

/-! ## Lookup lemmas for `upsert`, `mergeInto` and the folds -/

theorem valsFor_cons {β : Type} (k : Station) (p : Station × β) (l : List (Station × β)) :
    valsFor k (p :: l) = if p.1 = k then p.2 :: valsFor k l else valsFor k l := by
  simp only [valsFor, List.filterMap_cons]
  split <;> simp_all

theorem getEntry_upsert_self (t : Table) (k : Station) (v : Int) :
    getEntry (upsert t k v) k = updStep (getEntry t k) v := by
  induction t with
  | nil => simp [upsert, getEntry, updStep]
  | cons p rest ih =>
    obtain ⟨k', s⟩ := p
    by_cases h : k' = k <;> simp [upsert, getEntry, h, ih, updStep]

theorem getEntry_upsert_other (t : Table) {k' k : Station} (v : Int) (h : k' ≠ k) :
    getEntry (upsert t k' v) k = getEntry t k := by
  induction t with
  | nil => simp [upsert, getEntry, h]
  | cons p rest ih =>
    obtain ⟨k'', s⟩ := p
    by_cases h2 : k'' = k' <;> by_cases h3 : k'' = k <;>
      simp_all [upsert, getEntry]

theorem getEntry_mergeInto_self (t : Table) (k : Station) (v : Stat) :
    getEntry (mergeInto t k v) k = optMergeStep (getEntry t k) v := by
  induction t with
  | nil => simp [mergeInto, getEntry, optMergeStep, optMerge]
  | cons p rest ih =>
    obtain ⟨k', s⟩ := p
    by_cases h : k' = k <;> simp [mergeInto, getEntry, h, ih, optMergeStep, optMerge]

theorem getEntry_mergeInto_other (t : Table) {k' k : Station} (v : Stat) (h : k' ≠ k) :
    getEntry (mergeInto t k' v) k = getEntry t k := by
  induction t with
  | nil => simp [mergeInto, getEntry, h]
  | cons p rest ih =>
    obtain ⟨k'', s⟩ := p
    by_cases h2 : k'' = k' <;> by_cases h3 : k'' = k <;>
      simp_all [mergeInto, getEntry]

theorem getEntry_foldUp (obs : List (Station × Int)) (t : Table) (k : Station) :
    getEntry (foldUp t obs) k = (valsFor k obs).foldl updStep (getEntry t k) := by
  induction obs generalizing t with
  | nil => rfl
  | cons p obs ih =>
    obtain ⟨k', v⟩ := p
    have step : foldUp t ((k', v) :: obs) = foldUp (upsert t k' v) obs := rfl
    rw [step]
    by_cases h : k' = k
    · subst h
      rw [ih, getEntry_upsert_self]
      simp [valsFor_cons]
    · rw [ih, getEntry_upsert_other _ _ h]
      simp [valsFor_cons, h]

theorem getEntry_foldUp_nil (obs : List (Station × Int)) (k : Station) :
    getEntry (foldUp [] obs) k = statOfv (valsFor k obs) :=
  getEntry_foldUp obs [] k

theorem getEntry_mergeFold (items : List (Station × Stat)) (t : Table) (k : Station) :
    getEntry (items.foldl (fun t p => mergeInto t p.1 p.2) t) k
      = (valsFor k items).foldl optMergeStep (getEntry t k) := by
  induction items generalizing t with
  | nil => rfl
  | cons p items ih =>
    obtain ⟨k', v⟩ := p
    have step : ((k', v) :: items).foldl (fun t p => mergeInto t p.1 p.2) t
        = items.foldl (fun t p => mergeInto t p.1 p.2) (mergeInto t k' v) := rfl
    rw [step]
    by_cases h : k' = k
    · subst h
      rw [ih, getEntry_mergeInto_self]
      simp [valsFor_cons]
    · rw [ih, getEntry_mergeInto_other _ _ h]
      simp [valsFor_cons, h]

theorem getEntry_mergeTables (items : List (Station × Stat)) (k : Station) :
    getEntry (mergeTables items) k = (valsFor k items).foldl optMergeStep none :=
  getEntry_mergeFold items [] k

theorem foldl_optMergeStep_toList (a o : Option Stat) :
    o.toList.foldl optMergeStep a = optMerge a o := by
  cases o <;> simp [optMergeStep]

theorem foldl_optMergeStep_flatten (vss : List (List Int)) (a : Option Stat) :
    ((vss.map (fun vs => (statOfv vs).toList)).flatten).foldl optMergeStep a
      = optMerge a (statOfv vss.flatten) := by
  induction vss generalizing a with
  | nil => simp [statOfv]
  | cons vs vss ih =>
    simp only [List.map_cons, List.flatten_cons, List.foldl_append]
    rw [foldl_optMergeStep_toList, ih, statOfv_append, optMerge_assoc]

/-! ## Key sets and uniqueness -/

theorem mem_keys_upsert (t : Table) (k : Station) (v : Int) (k₀ : Station) :
    k₀ ∈ (upsert t k v).map Prod.fst ↔ k₀ ∈ t.map Prod.fst ∨ k₀ = k := by
  induction t with
  | nil => simp [upsert]
  | cons p rest ih =>
    obtain ⟨k', s⟩ := p
    by_cases h : k' = k
    · subst h
      simp [upsert]
      tauto
    · simp [upsert, h, ih]
      tauto

theorem nodup_keys_upsert (t : Table) (k : Station) (v : Int)
    (h : (t.map Prod.fst).Nodup) : ((upsert t k v).map Prod.fst).Nodup := by
  induction t with
  | nil => simp [upsert]
  | cons p rest ih =>
    obtain ⟨k', s⟩ := p
    simp only [List.map_cons, List.nodup_cons] at h
    by_cases hk : k' = k
    · subst hk
      simpa [upsert] using h
    · simp only [upsert, hk, if_false, List.map_cons, List.nodup_cons]
      refine ⟨fun hmem => ?_, ih h.2⟩
      rcases (mem_keys_upsert rest k v k').1 hmem with h1 | h1
      · exact h.1 h1
      · exact hk h1

theorem mem_keys_mergeInto (t : Table) (k : Station) (v : Stat) (k₀ : Station) :
    k₀ ∈ (mergeInto t k v).map Prod.fst ↔ k₀ ∈ t.map Prod.fst ∨ k₀ = k := by
  induction t with
  | nil => simp [mergeInto]
  | cons p rest ih =>
    obtain ⟨k', s⟩ := p
    by_cases h : k' = k
    · subst h
      simp [mergeInto]
      tauto
    · simp [mergeInto, h, ih]
      tauto

theorem nodup_keys_mergeInto (t : Table) (k : Station) (v : Stat)
    (h : (t.map Prod.fst).Nodup) : ((mergeInto t k v).map Prod.fst).Nodup := by
  induction t with
  | nil => simp [mergeInto]
  | cons p rest ih =>
    obtain ⟨k', s⟩ := p
    simp only [List.map_cons, List.nodup_cons] at h
    by_cases hk : k' = k
    · subst hk
      simpa [mergeInto] using h
    · simp only [mergeInto, hk, if_false, List.map_cons, List.nodup_cons]
      refine ⟨fun hmem => ?_, ih h.2⟩
      rcases (mem_keys_mergeInto rest k v k').1 hmem with h1 | h1
      · exact h.1 h1
      · exact hk h1

theorem nodup_keys_foldUp (obs : List (Station × Int)) (t : Table)
    (h : (t.map Prod.fst).Nodup) : ((foldUp t obs).map Prod.fst).Nodup := by
  induction obs generalizing t with
  | nil => exact h
  | cons p obs ih => exact ih _ (nodup_keys_upsert t p.1 p.2 h)

theorem nodup_keys_mergeTables (items : List (Station × Stat)) :
    ((mergeTables items).map Prod.fst).Nodup := by
  have main : ∀ (l : List (Station × Stat)) (t : Table), (t.map Prod.fst).Nodup →
      ((l.foldl (fun t p => mergeInto t p.1 p.2) t).map Prod.fst).Nodup := by
    intro l
    induction l with
    | nil => exact fun t h => h
    | cons p l ih => exact fun t h => ih _ (nodup_keys_mergeInto t p.1 p.2 h)
  exact main items [] (by simp)

theorem mem_keys_mergeTables (items : List (Station × Stat)) (k₀ : Station) :
    k₀ ∈ (mergeTables items).map Prod.fst ↔ k₀ ∈ items.map Prod.fst := by
  have main : ∀ (l : List (Station × Stat)) (t : Table),
      (k₀ ∈ (l.foldl (fun t p => mergeInto t p.1 p.2) t).map Prod.fst
        ↔ k₀ ∈ t.map Prod.fst ∨ k₀ ∈ l.map Prod.fst) := by
    intro l
    induction l with
    | nil => simp
    | cons p l ih =>
      intro t
      simp only [List.foldl_cons, ih, mem_keys_mergeInto, List.map_cons, List.mem_cons]
      tauto
  simpa using main items []

theorem valsFor_eq_nil_of_not_mem {β : Type} {k : Station} {l : List (Station × β)}
    (h : k ∉ l.map Prod.fst) : valsFor k l = [] := by
  induction l with
  | nil => rfl
  | cons p rest ih =>
    simp only [List.map_cons, List.mem_cons] at h
    push_neg at h
    rw [valsFor_cons, if_neg (fun hp => h.1 hp.symm), ih h.2]

theorem valsFor_eq_toList_getEntry (t : Table) (k : Station)
    (h : (t.map Prod.fst).Nodup) : valsFor k t = (getEntry t k).toList := by
  induction t with
  | nil => rfl
  | cons p rest ih =>
    obtain ⟨k', v⟩ := p
    simp only [List.map_cons, List.nodup_cons] at h
    by_cases hk : k' = k
    · subst hk
      rw [valsFor_cons, if_pos rfl]
      simp only [getEntry, if_pos rfl]
      rw [valsFor_eq_nil_of_not_mem h.1]
      rfl
    · rw [valsFor_cons, if_neg hk]
      simp only [getEntry, if_neg hk]
      exact ih h.2

/-! ## The byte-lexicographic order -/

theorem byteLexLt_asymm : ∀ {a b : List Byte},
    byteLexLt a b = true → byteLexLt b a = false := by
  intro a
  induction a with
  | nil =>
    intro b h
    cases b <;> simp [byteLexLt] at h ⊢
  | cons x xs ih =>
    intro b h
    cases b with
    | nil => simp [byteLexLt] at h
    | cons y ys =>
      simp only [byteLexLt] at h ⊢
      by_cases hxy : x < y
      · rw [if_neg (Nat.lt_asymm hxy), if_pos hxy]
      · by_cases hyx : y < x
        · rw [if_neg hxy, if_pos hyx] at h
          exact absurd h (by simp)
        · obtain rfl : x = y := Nat.le_antisymm (Nat.le_of_not_lt hyx) (Nat.le_of_not_lt hxy)
          rw [if_neg hxy, if_neg hxy] at h
          rw [if_neg hxy, if_neg hxy]
          exact ih h

theorem byteLexLt_trans : ∀ {a b c : List Byte},
    byteLexLt a b = true → byteLexLt b c = true → byteLexLt a c = true := by
  intro a
  induction a with
  | nil =>
    intro b c hab hbc
    cases b with
    | nil => simp [byteLexLt] at hab
    | cons y ys =>
      cases c with
      | nil => simp [byteLexLt] at hbc
      | cons z zs => simp [byteLexLt]
  | cons x xs ih =>
    intro b c hab hbc
    cases b with
    | nil => simp [byteLexLt] at hab
    | cons y ys =>
      cases c with
      | nil => simp [byteLexLt] at hbc
      | cons z zs =>
        simp only [byteLexLt] at hab hbc ⊢
        by_cases hxy : x < y <;> by_cases hyz : y < z
        · rw [if_pos (Nat.lt_trans hxy hyz)]
        · by_cases hzy : z < y
          · rw [if_neg hyz, if_pos hzy] at hbc
            exact absurd hbc (by simp)
          · obtain rfl : y = z := Nat.le_antisymm (Nat.le_of_not_lt hzy) (Nat.le_of_not_lt hyz)
            rw [if_pos hxy]
        · by_cases hyx : y < x
          · rw [if_neg hxy, if_pos hyx] at hab
            exact absurd hab (by simp)
          · obtain rfl : x = y := Nat.le_antisymm (Nat.le_of_not_lt hyx) (Nat.le_of_not_lt hxy)
            rw [if_pos hyz]
        · by_cases hyx : y < x
          · rw [if_neg hxy, if_pos hyx] at hab
            exact absurd hab (by simp)
          · obtain rfl : x = y := Nat.le_antisymm (Nat.le_of_not_lt hyx) (Nat.le_of_not_lt hxy)
            by_cases hzx : z < x
            · rw [if_neg hyz, if_pos hzx] at hbc
              exact absurd hbc (by simp)
            · obtain rfl : x = z :=
                Nat.le_antisymm (Nat.le_of_not_lt hzx) (Nat.le_of_not_lt hyz)
              rw [if_neg hxy, if_neg hxy] at hab
              rw [if_neg hyz, if_neg hyz] at hbc
              rw [if_neg hxy, if_neg hxy]
              exact ih hab hbc

theorem byteLexLt_connex : ∀ {a b : List Byte},
    byteLexLt a b = false → byteLexLt b a = false → a = b := by
  intro a
  induction a with
  | nil =>
    intro b hab _
    cases b with
    | nil => rfl
    | cons y ys => simp [byteLexLt] at hab
  | cons x xs ih =>
    intro b hab hba
    cases b with
    | nil => simp [byteLexLt] at hba
    | cons y ys =>
      simp only [byteLexLt] at hab hba
      by_cases hxy : x < y
      · rw [if_pos hxy] at hab
        exact absurd hab (by simp)
      · by_cases hyx : y < x
        · rw [if_pos hyx] at hba
          exact absurd hba (by simp)
        · obtain rfl : x = y := Nat.le_antisymm (Nat.le_of_not_lt hyx) (Nat.le_of_not_lt hxy)
          rw [if_neg hxy, if_neg hxy] at hab
          rw [if_neg hxy, if_neg hxy] at hba
          rw [ih hab hba]

/-! ## Sorting: permutation and ordering of `sortByKey` -/

theorem insertSorted_perm (x : Station × Stat) (l : Table) :
    (insertSorted x l).Perm (x :: l) := by
  induction l with
  | nil => exact List.Perm.refl _
  | cons y ys ih =>
    simp only [insertSorted]
    split
    · exact List.Perm.refl _
    · exact (ih.cons y).trans (List.Perm.swap x y ys)

theorem sortByKey_perm (t : Table) : (sortByKey t).Perm t := by
  induction t with
  | nil => exact List.Perm.refl _
  | cons p t ih => exact (insertSorted_perm p (sortByKey t)).trans (ih.cons p)

theorem pairwise_insertSorted (x : Station × Stat) (l : Table)
    (h : l.Pairwise keyLe) : (insertSorted x l).Pairwise keyLe := by
  induction l with
  | nil => simp [insertSorted]
  | cons y ys ih =>
    rw [List.pairwise_cons] at h
    simp only [insertSorted]
    split
    · rename_i hlt
      refine List.Pairwise.cons ?_ (List.Pairwise.cons h.1 h.2)
      intro z hz
      rcases List.mem_cons.1 hz with rfl | hz
      · exact byteLexLt_asymm hlt
      · by_contra hc
        have hzx : byteLexLt z.1 x.1 = true := by
          simpa [keyLe] using hc
        have : byteLexLt z.1 y.1 = true := byteLexLt_trans hzx hlt
        have hzy := h.1 z hz
        simp [keyLe, this] at hzy
    · rename_i hnlt
      refine List.Pairwise.cons ?_ (ih h.2)
      intro z hz
      have hz' := (insertSorted_perm x ys).mem_iff.mp hz
      rcases List.mem_cons.1 hz' with rfl | hz'
      · simpa [keyLe] using hnlt
      · exact h.1 z hz'

theorem pairwise_sortByKey (t : Table) : (sortByKey t).Pairwise keyLe := by
  induction t with
  | nil => exact List.Pairwise.nil
  | cons p t ih => exact pairwise_insertSorted p _ ih

theorem pairwise_keyLt_merge_and_sort (items : List (Station × Stat)) :
    (merge_and_sort items).Pairwise keyLt := by
  have hle : (merge_and_sort items).Pairwise keyLe := pairwise_sortByKey (mergeTables items)
  have hperm : (merge_and_sort items).Perm (mergeTables items) :=
    sortByKey_perm (mergeTables items)
  have hnd : ((merge_and_sort items).map Prod.fst).Nodup :=
    (hperm.map Prod.fst).nodup_iff.mpr (nodup_keys_mergeTables items)
  have hne : (merge_and_sort items).Pairwise (fun a b => a.1 ≠ b.1) :=
    List.pairwise_map.mp hnd
  refine (hle.and hne).imp ?_
  intro a b hab
  by_contra hc
  have hab' : byteLexLt a.1 b.1 = false := by
    simpa [keyLt] using hc
  exact hab.2 (byteLexLt_connex hab' hab.1)

theorem count_eq_one_nodup {k : Station} {l : List Station} (hnd : l.Nodup) (hk : k ∈ l) :
    l.count k = 1 := by
  induction l with
  | nil => cases hk
  | cons a l ih =>
    simp only [List.nodup_cons] at hnd
    rcases List.mem_cons.1 hk with rfl | hk
    · rw [List.count_cons_self]
      have h0 : l.count k = 0 := by
        rw [List.count_eq_zero]
        exact hnd.1
      omega
    · have hne : k ≠ a := fun he => hnd.1 (by rw [← he]; exact hk)
      rw [List.count_cons_of_ne hne, ih hnd.2 hk]

theorem count_one_merge_and_sort (items : List (Station × Stat)) (k : Station)
    (h : k ∈ items.map Prod.fst) :
    ((merge_and_sort items).map Prod.fst).count k = 1 := by
  have hmem : k ∈ (mergeTables items).map Prod.fst := (mem_keys_mergeTables items k).mpr h
  have hperm := (sortByKey_perm (mergeTables items)).map Prod.fst
  have hnd : ((merge_and_sort items).map Prod.fst).Nodup :=
    hperm.nodup_iff.mpr (nodup_keys_mergeTables items)
  have hmem' : k ∈ (merge_and_sort items).map Prod.fst := hperm.mem_iff.mpr hmem
  exact count_eq_one_nodup hnd hmem'

/-! ## Structure of `memchr` results -/

theorem memchr_not_mem {c : Byte} {l : List Byte} (h : c ∉ l) : memchr c l = none := by
  induction l with
  | nil => rfl
  | cons b rest ih =>
    simp only [List.mem_cons] at h
    push_neg at h
    have hbc : ¬ b = c := fun he => h.1 he.symm
    simp [memchr, hbc, ih h.2]

theorem memchr_append_not_mem {c : Byte} {l₁ : List Byte} (l₂ : List Byte) (h : c ∉ l₁) :
    memchr c (l₁ ++ l₂) = (memchr c l₂).map (· + l₁.length) := by
  induction l₁ with
  | nil => cases hm : memchr c l₂ <;> simp [hm]
  | cons b rest ih =>
    simp only [List.mem_cons] at h
    push_neg at h
    have hbc : ¬ b = c := fun he => h.1 he.symm
    rw [List.cons_append]
    simp only [memchr, if_neg hbc]
    rw [ih h.2]
    cases hm : memchr c l₂ <;> simp [List.length_cons] <;> omega

theorem memchr_cons_self (c : Byte) (l : List Byte) : memchr c (c :: l) = some 0 := by
  simp [memchr]

theorem memchr_append_cons_self {c : Byte} {l : List Byte} (rest : List Byte) (h : c ∉ l) :
    memchr c (l ++ c :: rest) = some l.length := by
  rw [memchr_append_not_mem _ h, memchr_cons_self]
  simp

theorem memchr_getElem {c : Byte} {l : List Byte} {i : Nat} (h : memchr c l = some i) :
    l[i]? = some c := by
  induction l generalizing i with
  | nil => simp [memchr] at h
  | cons b rest ih =>
    simp only [memchr] at h
    split at h
    · rename_i hb
      simp only [Option.some.injEq] at h
      subst hb
      rw [← h]
      simp
    · simp only [Option.map_eq_some'] at h
      obtain ⟨j, hj, hji⟩ := h
      rw [← hji]
      simpa using ih hj

theorem take_memchr_succ {c : Byte} {l : List Byte} {i : Nat} (h : memchr c l = some i) :
    l.take (i + 1) = l.take i ++ [c] := by
  rw [List.take_succ, memchr_getElem h]
  rfl

theorem drop_append_cons (l : List Byte) (x : Byte) (rest : List Byte) :
    (l ++ x :: rest).drop (l.length + 1) = rest := by
  have h := List.drop_left (l ++ [x]) rest
  simpa using h

/-! ## Behaviour of the record-processing loop -/

theorem processGo_memchr_none (data : List Byte) (total : Nat) (t : Table)
    (h : memchr 10 data = none) : processGo data total t = some (total, t) := by
  rw [processGo]
  split
  · rfl
  · rename_i idx heq
    rw [h] at heq
    cases heq

theorem processGo_replicate (m total : Nat) (t : Table) :
    processGo (List.replicate m 10) total t = some (total, t) := by
  cases m with
  | zero => exact processGo_memchr_none [] total t rfl
  | succ m =>
    rw [processGo]
    split
    · rfl
    · rename_i idx heq
      have hmc : memchr 10 (List.replicate (m + 1) 10) = some 0 := by
        simp [List.replicate_succ, memchr]
      rw [hmc] at heq
      cases heq
      simp

theorem processGo_goodline {l : List Byte} {kv : Station × Int} (rest : List Byte)
    (total : Nat) (t : Table) (hobs : lineObs l = some kv) (hne : l ≠ []) (hnl : 10 ∉ l) :
    processGo (l ++ 10 :: rest) total t = processGo rest (total + 1) (upsert t kv.1 kv.2) := by
  obtain ⟨k, v⟩ := kv
  cases hm : memchr 59 l with
  | none => simp [lineObs, hm] at hobs
  | some j =>
    cases hp : parse_number (l.drop (j + 1)) with
    | none => simp [lineObs, hm, hp] at hobs
    | some num =>
      have hobs' : l.take j = k ∧ num = v := by
        simpa [lineObs, hm, hp] using hobs
      rw [processGo]
      split
      · rename_i heq
        rw [memchr_append_cons_self rest hnl] at heq
        cases heq
      · rename_i idx heq
        rw [memchr_append_cons_self rest hnl] at heq
        simp only [Option.some.injEq] at heq
        subst heq
        rw [if_neg]
        · simp only [List.take_left]
          rw [hm]
          dsimp only
          rw [hp]
          dsimp only
          simp only [drop_append_cons]
          rw [hobs'.1, hobs'.2]
        · rw [List.take_left]
          exact hne

theorem processGo_badline {l : List Byte} (rest : List Byte) (total : Nat) (t : Table)
    (hobs : lineObs l = none) (hne : l ≠ []) (hnl : 10 ∉ l) :
    processGo (l ++ 10 :: rest) total t = none := by
  rw [processGo]
  split
  · rename_i heq
    rw [memchr_append_cons_self rest hnl] at heq
    cases heq
  · rename_i idx heq
    rw [memchr_append_cons_self rest hnl] at heq
    simp only [Option.some.injEq] at heq
    subst heq
    rw [if_neg]
    · simp only [List.take_left]
      cases hm : memchr 59 l with
      | none => rfl
      | some j =>
        dsimp only
        cases hp : parse_number (l.drop (j + 1)) with
        | none => rfl
        | some num =>
          exfalso
          simp [lineObs, hm, hp] at hobs
    · rw [List.take_left]
      exact hne

theorem processGo_joinLines_then (lines : List (List Byte)) (suffix : List Byte)
    (total : Nat) (t : Table) (h : ∀ l ∈ lines, GoodLine l) :
    processGo (joinLines lines ++ suffix) total t
      = processGo suffix (total + lines.length) (foldUp t (obsList lines)) := by
  induction lines generalizing total t with
  | nil => simp [joinLines, obsList, foldUp]
  | cons l lines ih =>
    have hl := h l (List.mem_cons_self l lines)
    obtain ⟨kv, hkv⟩ := Option.isSome_iff_exists.mp hl.2.2
    have heq : joinLines (l :: lines) ++ suffix
        = l ++ 10 :: (joinLines lines ++ suffix) := by
      simp [joinLines]
    rw [heq, processGo_goodline _ total t hkv hl.1 hl.2.1]
    rw [ih (total + 1) (upsert t kv.1 kv.2) (fun l' hl' => h l' (List.mem_cons_of_mem _ hl'))]
    have hobs : obsList (l :: lines) = kv :: obsList lines := by
      simp [obsList, List.filterMap_cons, hkv]
    rw [hobs]
    have hfold : foldUp t (kv :: obsList lines) = foldUp (upsert t kv.1 kv.2) (obsList lines) :=
      rfl
    rw [hfold]
    congr 1
    simp only [List.length_cons]
    omega

theorem processGo_joinLines (lines : List (List Byte)) (m total : Nat) (t : Table)
    (h : ∀ l ∈ lines, GoodLine l) :
    processGo (joinLines lines ++ List.replicate m 10) total t
      = some (total + lines.length, foldUp t (obsList lines)) := by
  rw [processGo_joinLines_then lines _ total t h, processGo_replicate]

theorem process_chunk_wf {data : List Byte} {lines : List (List Byte)} {m : Nat}
    (h : ∀ l ∈ lines, GoodLine l) (hdata : data = joinLines lines ++ List.replicate m 10) :
    process_chunk data = some (lines.length, foldUp [] (obsList lines)) := by
  rw [hdata]
  unfold process_chunk
  rw [processGo_joinLines lines m 0 [] h]
  simp

theorem collect_eq_none_of_mem {α β : Type} (f : α → Option β) {l : List α} {c : α}
    (hc : c ∈ l) (hf : f c = none) : collect f l = none := by
  induction l with
  | nil => cases hc
  | cons a l ih =>
    rcases List.mem_cons.1 hc with rfl | hc
    · simp [collect, hf]
    · cases hfa : f a
      · simp [collect, hfa]
      · simp [collect, hfa, ih hc]

/-! ## Cutting a well-formed buffer right after a newline -/

theorem joinLines_nil : joinLines [] = [] := rfl

theorem joinLines_cons (l : List Byte) (lines : List (List Byte)) :
    joinLines (l :: lines) = l ++ 10 :: joinLines lines := by
  simp [joinLines]

theorem cut_wf : ∀ (lines : List (List Byte)) (m p : Nat) (q : List Byte),
    (∀ l ∈ lines, GoodLine l) →
    p ≤ (joinLines lines ++ List.replicate m 10).length →
    (joinLines lines ++ List.replicate m 10).take p = q ++ [10] →
    ∃ lines₁ lines₂ m₁ m₂,
      lines₁ ++ lines₂ = lines ∧ m₁ + m₂ = m ∧
      (joinLines lines ++ List.replicate m 10).take p
        = joinLines lines₁ ++ List.replicate m₁ 10 ∧
      (joinLines lines ++ List.replicate m 10).drop p
        = joinLines lines₂ ++ List.replicate m₂ 10 := by
  intro lines
  induction lines with
  | nil =>
    intro m p q _ hlen _
    have hpm : p ≤ m := by
      simpa [joinLines] using hlen
    refine ⟨[], [], p, m - p, rfl, by omega, ?_, ?_⟩
    · simp only [joinLines_nil, List.nil_append, List.take_replicate]
      congr 1
      omega
    · simp only [joinLines_nil, List.nil_append, List.drop_replicate]
  | cons l lines ih =>
    intro m p q hgood hlen htake
    have hl : GoodLine l := hgood l (List.mem_cons_self l lines)
    have hD : joinLines (l :: lines) ++ List.replicate m 10
        = (l ++ [10]) ++ (joinLines lines ++ List.replicate m 10) := by
      simp [joinLines]
    have hA : (l ++ [10]).length = l.length + 1 := by simp
    rcases Nat.lt_trichotomy p (l.length + 1) with hp | hp | hp
    · -- the cut would land inside the line `l`: impossible, `l` has no newline
      have hple : p ≤ l.length := by omega
      exfalso
      have hTl : (joinLines (l :: lines) ++ List.replicate m 10).take p = l.take p := by
        rw [hD, List.take_append_of_le_length (by omega), List.take_append_of_le_length hple]
      rw [hTl] at htake
      have h10 : (10 : Byte) ∈ l.take p := by
        rw [htake]
        simp
      exact hl.2.1 (List.take_subset p l h10)
    · -- cut exactly after the newline terminating `l`
      refine ⟨[l], lines, 0, m, by simp, by omega, ?_, ?_⟩
      · rw [hD, hp, ← hA, List.take_left]
        simp [joinLines]
      · rw [hD, hp, ← hA, List.drop_left]
    · -- cut strictly inside the remainder: recurse
      set p' := p - (l.length + 1) with hpdef
      have hpp : p = (l.length + 1) + p' := by omega
      have hlen' : p' ≤ (joinLines lines ++ List.replicate m 10).length := by
        rw [hD] at hlen
        simp only [List.length_append, hA] at hlen ⊢
        omega
      have htake2 : (joinLines (l :: lines) ++ List.replicate m 10).take p
          = (l ++ [10]) ++ (joinLines lines ++ List.replicate m 10).take p' := by
        have ht := @List.take_append _ (l ++ [10]) (joinLines lines ++ List.replicate m 10) p'
        rw [hA] at ht
        rw [hD, hpp, ht]
      have hdrop2 : (joinLines (l :: lines) ++ List.replicate m 10).drop p
          = (joinLines lines ++ List.replicate m 10).drop p' := by
        rw [hD, hpp, ← List.drop_drop]
        rw [show (l.length + 1 : Nat) = (l ++ [10]).length from hA.symm, List.drop_left]
      have hqlen : l.length + 1 ≤ q.length := by
        have h1 := congrArg List.length htake
        have h2 : ((joinLines (l :: lines) ++ List.replicate m 10).take p).length = p := by
          rw [List.length_take]
          omega
        simp only [h2, List.length_append, List.length_cons, List.length_nil] at h1
        omega
      have htake' : (joinLines lines ++ List.replicate m 10).take p'
          = q.drop (l.length + 1) ++ [10] := by
        have h1 := congrArg (List.drop (l.length + 1)) (htake2.symm.trans htake)
        rw [show (l.length + 1 : Nat) = (l ++ [10]).length from hA.symm, List.drop_left] at h1
        rw [hA] at h1
        rw [h1, List.drop_append_of_le_length hqlen]
      obtain ⟨lines₁, lines₂, m₁, m₂, hsplit, hm, htk, hdr⟩ :=
        ih m p' (q.drop (l.length + 1))
          (fun l' hl' => hgood l' (List.mem_cons_of_mem _ hl')) hlen' htake'
      refine ⟨l :: lines₁, lines₂, m₁, m₂, by rw [List.cons_append, hsplit], hm, ?_, ?_⟩
      · rw [htake2, htk, joinLines_cons]
        simp
      · rw [hdrop2, hdr]

/-! ## Chunking lemmas -/

theorem chunk_go_ne_nil (jump : Nat) (needle : Byte) (r : Nat) (data : List Byte) :
    chunk_go jump needle r data ≠ [] := by
  cases r with
  | zero => simp [chunk_go]
  | succ r =>
    simp only [chunk_go]
    split
    · split <;> simp
    · simp

theorem chunk_go_flatten (jump : Nat) (needle : Byte) (r : Nat) :
    ∀ data : List Byte, (chunk_go jump needle r data).flatten = data := by
  induction r with
  | zero => intro data; simp [chunk_go]
  | succ r ih =>
    intro data
    simp only [chunk_go]
    split
    · cases hm : memchr needle (data.drop jump) with
      | some off => simp [ih]
      | none => simp
    · simp

theorem chunk_go_length_le (jump : Nat) (needle : Byte) (r : Nat) :
    ∀ data : List Byte, (chunk_go jump needle r data).length ≤ r + 1 := by
  induction r with
  | zero => intro data; simp [chunk_go]
  | succ r ih =>
    intro data
    simp only [chunk_go]
    split
    · cases hm : memchr needle (data.drop jump) with
      | some off =>
        simp only [List.length_cons]
        have := ih (data.drop (jump + off + 1))
        omega
      | none => simp
    · simp

theorem take_chunk_ends_needle {jump off : Nat} {needle : Byte} {data : List Byte}
    (hm : memchr needle (data.drop jump) = some off) :
    data.take (jump + off + 1) = (data.take jump ++ (data.drop jump).take off) ++ [needle] := by
  have h1 : data.take (jump + (off + 1)) = data.take jump ++ (data.drop jump).take (off + 1) :=
    List.take_add data jump (off + 1)
  rw [take_memchr_succ hm] at h1
  rw [show jump + off + 1 = jump + (off + 1) by omega, h1, List.append_assoc]

theorem chunk_go_dropLast (jump : Nat) (needle : Byte) (r : Nat) :
    ∀ data : List Byte, ∀ c ∈ (chunk_go jump needle r data).dropLast, ∃ q, c = q ++ [needle] := by
  induction r with
  | zero => intro data c hc; simp [chunk_go] at hc
  | succ r ih =>
    intro data c hc
    simp only [chunk_go] at hc
    split at hc
    · split at hc
      · rename_i off heq
        rw [List.dropLast_cons_of_ne_nil (chunk_go_ne_nil jump needle r _)] at hc
        rcases List.mem_cons.1 hc with rfl | hc
        · exact ⟨data.take jump ++ (data.drop jump).take off, take_chunk_ends_needle heq⟩
        · exact ih _ c hc
      · simp at hc
    · simp at hc

theorem chunk_data_nil (parts : Nat) (needle : Byte) : chunk_data [] parts needle = [[]] := by
  unfold chunk_data
  cases parts - 1 with
  | zero => simp [chunk_go]
  | succ r => simp [chunk_go]

theorem chunk_data_no_needle (data : List Byte) (parts : Nat) {needle : Byte}
    (h : needle ∉ data) : chunk_data data parts needle = [data] := by
  unfold chunk_data
  cases parts - 1 with
  | zero => simp [chunk_go]
  | succ r =>
    simp only [chunk_go]
    split
    · rw [memchr_not_mem (fun hmem => h (List.drop_subset _ data hmem))]
    · rfl

theorem chunk_tables (r jump : Nat) :
    ∀ (data : List Byte) (lines : List (List Byte)) (m : Nat),
    (∀ l ∈ lines, GoodLine l) → data = joinLines lines ++ List.replicate m 10 →
    ∃ linesParts : List (List (List Byte)),
      linesParts.flatten = lines ∧
      collect process_chunk (chunk_go jump 10 r data)
        = some (linesParts.map (fun ls => (ls.length, foldUp [] (obsList ls)))) := by
  induction r with
  | zero =>
    intro data lines m hgood hdata
    refine ⟨[lines], by simp, ?_⟩
    simp [chunk_go, collect, process_chunk_wf hgood hdata]
  | succ r ih =>
    intro data lines m hgood hdata
    by_cases hjl : jump < data.length
    · cases hm : memchr 10 (data.drop jump) with
      | none =>
        refine ⟨[lines], by simp, ?_⟩
        simp only [chunk_go, if_pos hjl, hm]
        simp [collect, process_chunk_wf hgood hdata]
      | some off =>
        have hofflt := memchr_lt_length hm
        have hPle : jump + off + 1 ≤ data.length := by
          simp only [List.length_drop] at hofflt
          omega
        have htake10 := take_chunk_ends_needle hm
        subst hdata
        obtain ⟨lines₁, lines₂, m₁, m₂, hsplit, hmsum, htk, hdr⟩ :=
          cut_wf lines m (jump + off + 1) _ hgood hPle htake10
        have hgood₁ : ∀ l ∈ lines₁, GoodLine l := fun l hl =>
          hgood l (by rw [← hsplit]; exact List.mem_append_left _ hl)
        have hgood₂ : ∀ l ∈ lines₂, GoodLine l := fun l hl =>
          hgood l (by rw [← hsplit]; exact List.mem_append_right _ hl)
        obtain ⟨lps, hlps, hcoll⟩ :=
          ih ((joinLines lines ++ List.replicate m 10).drop (jump + off + 1)) lines₂ m₂ hgood₂ hdr
        refine ⟨lines₁ :: lps, ?_, ?_⟩
        · simp [hlps, hsplit]
        · simp only [chunk_go, if_pos hjl, hm]
          have hpc : process_chunk ((joinLines lines ++ List.replicate m 10).take (jump + off + 1))
              = some (lines₁.length, foldUp [] (obsList lines₁)) := process_chunk_wf hgood₁ htk
          simp [collect, hpc, hcoll]
    · refine ⟨[lines], by simp, ?_⟩
      simp only [chunk_go, if_neg hjl]
      simp [collect, process_chunk_wf hgood hdata]

/-! ## Claim theorems and witnesses -/

theorem parse_number_tail_shape {negative : Bool} {rest : List Byte} {v : Int}
    (h : parse_number_tail negative rest = some v) : specShapeBody rest = true := by
  unfold parse_number_tail at h
  unfold specShapeBody
  split at h
  · split at h
    · rename_i hd
      simp_all
    · cases h
  · split at h
    · rename_i hd
      simp_all
    · cases h
  · cases h

theorem parse_number_not_shape (data : List Byte) (h : specShape data = false) :
    parse_number data = none := by
  cases hv : parse_number data with
  | none => rfl
  | some v =>
    exfalso
    unfold parse_number at hv
    unfold specShape at h
    cases hneg : (data.head? == some 45) with
    | true =>
      simp only [hneg, if_true] at hv h
      rw [parse_number_tail_shape hv] at h
      cases h
    | false =>
      simp only [hneg, if_false, Bool.false_eq_true, List.drop_zero] at hv h
      rw [parse_number_tail_shape hv] at h
      cases h

theorem perm_foldl_optMergeStep {l₁ l₂ : List Stat} (h : l₁.Perm l₂) :
    ∀ a : Option Stat, l₁.foldl optMergeStep a = l₂.foldl optMergeStep a := by
  induction h with
  | nil => intro a; rfl
  | cons x _ ih => intro a; simp only [List.foldl_cons, ih]
  | swap x y l =>
    intro a
    simp only [List.foldl_cons]
    have hsw : optMergeStep (optMergeStep a y) x = optMergeStep (optMergeStep a x) y := by
      unfold optMergeStep
      rw [optMerge_assoc, optMerge_assoc, optMerge_comm (some y) (some x)]
    rw [hsw]
  | trans _ _ ih₁ ih₂ => intro a; rw [ih₁ a, ih₂ a]

/-- Claim C2: the decoder is claimed to negate exactly when the sign is
present, with `"-3.2" → -32`, `"41.9" → 419`, `"5.0" → 50`.  The code
multiplies by `i16::from(negative) * 2 - 1`, which is `+1` when the sign
IS present and `-1` when it is absent, so every decoded value comes out
with the opposite sign: `"5.0" → -50`, `"-3.2" → 32`, `"41.9" → -419`. -/
theorem claim_c2_sign_flipped :
    parse_number [53, 46, 48] = some (-50) ∧
    parse_number [45, 51, 46, 50] = some 32 ∧
    parse_number [52, 49, 46, 57] = some (-419) := by
  refine ⟨by decide, by decide, by decide⟩

/-- Claim C9: the decoder fails on every byte slice that is not of the
accepted shape (optional `-`, one or two digits, `.`, one digit). -/
theorem claim_c9_decoder_rejects (data : List Byte) (h : specShape data = false) :
    parse_number data = none :=
  parse_number_not_shape data h

/-- Witness for C9: `"41.23"` (two fractional digits) is rejected. -/
theorem claim_c9_witness :
    specShape [52, 49, 46, 50, 51] = false ∧ parse_number [52, 49, 46, 50, 51] = none :=
  ⟨by decide, claim_c9_decoder_rejects [52, 49, 46, 50, 51] (by decide)⟩

/-- Claim C10: the decoder is total — the slice taken after the optional
sign is always in bounds (the bounds-checked run never panics and agrees
with the unchecked model on every input, empty and `"-"` included). -/
theorem claim_c10_total (data : List Byte) :
    parse_number_run data = some (parse_number data) := by
  unfold parse_number_run parse_number
  cases data with
  | nil => simp
  | cons b rest =>
    cases hneg : ((b :: rest).head? == some 45) <;> simp [hneg]

/-- Claim C5: `Stat::merge` is commutative and associative, and
consequently folding the partial tables in any order (any permutation of
the list of tables) yields the same merged station-to-statistics
mapping. -/
theorem claim_c5_merge_comm_assoc :
    (∀ a b : Stat, a.merge b = b.merge a) ∧
    (∀ a b c : Stat, (a.merge b).merge c = a.merge (b.merge c)) ∧
    (∀ tabs₁ tabs₂ : List Table, tabs₁.Perm tabs₂ → ∀ k : Station,
      getEntry (mergeTables tabs₁.flatten) k = getEntry (mergeTables tabs₂.flatten) k) := by
  refine ⟨Stat.merge_comm, Stat.merge_assoc, ?_⟩
  intro tabs₁ tabs₂ hperm k
  rw [getEntry_mergeTables, getEntry_mergeTables]
  exact perm_foldl_optMergeStep (List.Perm.filterMap _ hperm.flatten) none

/-- Witness for C5 at two concrete one-entry tables in both orders. -/
theorem claim_c5_witness :
    getEntry (mergeTables ([[([65], Stat.new 1)], [([65], Stat.new 2)]] : List Table).flatten) [65]
      = getEntry (mergeTables ([[([65], Stat.new 2)], [([65], Stat.new 1)]] : List Table).flatten)
          [65] :=
  claim_c5_merge_comm_assoc.2.2 _ _ (by decide) [65]

/-- Counterexample to C8 as literally stated: `update` is a wrapping
`u32` increment, so an entry whose count has reached `2^32 - 1`
observations (reachable for a large but addressable input) satisfies the
invariant, yet one more update wraps its count to `0`, violating
`count ≥ 1`. -/
theorem claim_c8_counterexample :
    ObservedBy ⟨0, 0, 0, 4294967295⟩ [0] ∧
    ¬ ObservedBy ((⟨0, 0, 0, 4294967295⟩ : Stat).update 0) (0 :: [0]) := by
  constructor
  · exact ⟨by decide, by decide, by decide, by decide⟩
  · intro h
    exact absurd h.1 (by decide)

/-- Claim C8, amended: a statistics entry built from one observation,
and every entry obtained from such entries by `update` or `merge`,
satisfies `count ≥ 1`, `min ≤ max`, and has `min` and `max` among the
observed values — provided the resulting observation count stays below
`2^32`, so that the `u32` counter does not wrap (automatic for the
documented workload of at most a few billion records in total). -/
theorem claim_c8_invariants :
    (∀ v : Int, ObservedBy (Stat.new v) [v]) ∧
    (∀ (s : Stat) (obs : List Int) (v : Int), ObservedBy s obs →
      s.count + 1 < 4294967296 → ObservedBy (s.update v) (v :: obs)) ∧
    (∀ (a b : Stat) (oa ob : List Int), ObservedBy a oa → ObservedBy b ob →
      a.count + b.count < 4294967296 → ObservedBy (a.merge b) (oa ++ ob)) := by
  refine ⟨?_, ?_, ?_⟩
  · intro v
    exact ⟨le_refl 1, le_refl v, List.mem_singleton.mpr rfl, List.mem_singleton.mpr rfl⟩
  · intro s obs v h hcnt
    refine ⟨?_, ?_, ?_, ?_⟩
    · show 1 ≤ (s.count + 1) % 4294967296
      omega
    · show Min.min s.min v ≤ Max.max s.max v
      exact le_trans (min_le_left _ _) (le_trans h.2.1 (le_max_left _ _))
    · show Min.min s.min v ∈ v :: obs
      rcases min_choice s.min v with hc2 | hc2
      · rw [hc2]
        exact List.mem_cons_of_mem _ h.2.2.1
      · rw [hc2]
        exact List.mem_cons_self _ _
    · show Max.max s.max v ∈ v :: obs
      rcases max_choice s.max v with hc2 | hc2
      · rw [hc2]
        exact List.mem_cons_of_mem _ h.2.2.2
      · rw [hc2]
        exact List.mem_cons_self _ _
  · intro a b oa ob ha hb hcnt
    refine ⟨?_, ?_, ?_, ?_⟩
    · show 1 ≤ (a.count + b.count) % 4294967296
      have := ha.1
      omega
    · show Min.min a.min b.min ≤ Max.max a.max b.max
      exact le_trans (min_le_left _ _) (le_trans ha.2.1 (le_max_left _ _))
    · show Min.min a.min b.min ∈ oa ++ ob
      rcases min_choice a.min b.min with hc2 | hc2
      · rw [hc2]
        exact List.mem_append_left _ ha.2.2.1
      · rw [hc2]
        exact List.mem_append_right _ hb.2.2.1
    · show Max.max a.max b.max ∈ oa ++ ob
      rcases max_choice a.max b.max with hc2 | hc2
      · rw [hc2]
        exact List.mem_append_left _ ha.2.2.2
      · rw [hc2]
        exact List.mem_append_right _ hb.2.2.2

/-- Witness for C8: the invariant holds at a concrete update and a
concrete merge, with the hypotheses discharged by the creation case and
the concrete count bounds. -/
theorem claim_c8_witness :
    ObservedBy ((Stat.new 5).update (-3)) [-3, 5] ∧
    ObservedBy ((Stat.new 1).merge (Stat.new 2)) ([1] ++ [2]) :=
  ⟨claim_c8_invariants.2.1 (Stat.new 5) [5] (-3) (claim_c8_invariants.1 5) (by decide),
   claim_c8_invariants.2.2 (Stat.new 1) (Stat.new 2) [1] [2]
     (claim_c8_invariants.1 1) (claim_c8_invariants.1 2) (by decide)⟩

/-- Claim C4: for every buffer, parts count `N ≥ 1` and separator byte,
the splitter returns a non-empty list of at most `N` ranges whose
concatenation is the buffer, every range but the last ends right after a
separator, an empty buffer gives one empty range, and a buffer without
the separator gives a single range equal to the whole buffer. -/
theorem claim_c4_chunking (data : List Byte) (parts : Nat) (needle : Byte) (hp : 1 ≤ parts) :
    chunk_data data parts needle ≠ [] ∧
    (chunk_data data parts needle).length ≤ parts ∧
    (chunk_data data parts needle).flatten = data ∧
    (∀ c ∈ (chunk_data data parts needle).dropLast, ∃ q, c = q ++ [needle]) ∧
    (data = [] → chunk_data data parts needle = [[]]) ∧
    (needle ∉ data → chunk_data data parts needle = [data]) := by
  refine ⟨chunk_go_ne_nil _ _ _ _, ?_, chunk_go_flatten _ _ _ data,
    chunk_go_dropLast _ _ _ data, fun h => by rw [h]; exact chunk_data_nil parts needle,
    fun h => chunk_data_no_needle data parts h⟩
  have hlen := chunk_go_length_le (data.length / parts) needle (parts - 1) data
  unfold chunk_data
  omega

/-- Witness for C4 at a concrete four-byte buffer split in two. -/
theorem claim_c4_witness :
    chunk_data [65, 10, 66, 10] 2 10 ≠ [] ∧
    (chunk_data [65, 10, 66, 10] 2 10).length ≤ 2 ∧
    (chunk_data [65, 10, 66, 10] 2 10).flatten = [65, 10, 66, 10] ∧
    (∀ c ∈ (chunk_data [65, 10, 66, 10] 2 10).dropLast, ∃ q, c = q ++ [10]) ∧
    ([65, 10, 66, 10] = ([] : List Byte) → chunk_data [65, 10, 66, 10] 2 10 = [[]]) ∧
    ((10 : Byte) ∉ [65, 10, 66, 10] → chunk_data [65, 10, 66, 10] 2 10 = [[65, 10, 66, 10]]) :=
  claim_c4_chunking [65, 10, 66, 10] 2 10 (by decide)

/-- Claim C7: the merged-and-sorted sequence is strictly increasing in
byte-lexicographic key order, and every station occurring among the
partial tables' entries appears exactly once in it. -/
theorem claim_c7_sorted_unique (items : List (Station × Stat)) :
    (merge_and_sort items).Pairwise keyLt ∧
    (∀ k : Station, k ∈ items.map Prod.fst →
      ((merge_and_sort items).map Prod.fst).count k = 1) :=
  ⟨pairwise_keyLt_merge_and_sort items, fun k h => count_one_merge_and_sort items k h⟩

/-- Witness for C7: a duplicated station across two partial tables shows
up exactly once. -/
theorem claim_c7_witness :
    ((merge_and_sort [([66], Stat.new 1), ([65], Stat.new 2), ([66], Stat.new 3)]).map
      Prod.fst).count [66] = 1 :=
  (claim_c7_sorted_unique [([66], Stat.new 1), ([65], Stat.new 2), ([66], Stat.new 3)]).2
    [66] (by decide)

/-- Counterexample to C6 as literally stated: the range `"\nX\n"`
contains the non-empty record `"X"`, which has no `;` (so it is
malformed), yet the chunk aggregator succeeds with an empty table,
because scanning stops at the first empty line and that record is never
examined. -/
theorem claim_c6_counterexample :
    ([88] : List Byte) ≠ [] ∧ memchr 59 [88] = none ∧
    process_chunk [10, 88, 10] = some (0, []) := by
  refine ⟨by decide, by decide, ?_⟩
  show processGo [10, 88, 10] 0 [] = some (0, [])
  rw [processGo]
  split
  · rename_i heq
    exact absurd heq (by decide)
  · rename_i idx heq
    have h0 : memchr 10 [10, 88, 10] = some 0 := rfl
    rw [h0] at heq
    simp only [Option.some.injEq] at heq
    subst heq
    simp

/-- Claim C6, amended: a malformed record (non-empty, no `;` or
undecodable temperature) that the scanner reaches — i.e. one preceded
only by well-formed newline-terminated records, before any blank line —
makes the chunk aggregator return an error, and any failing chunk makes
the whole pipeline abort with nothing written to standard output. -/
theorem claim_c6_malformed_aborts :
    (∀ (pre : List (List Byte)) (bad rest : List Byte),
      (∀ l ∈ pre, GoodLine l) → bad ≠ [] → 10 ∉ bad → lineObs bad = none →
      process_chunk (joinLines pre ++ (bad ++ 10 :: rest)) = none) ∧
    (∀ (data : List Byte) (parts : Nat),
      (∃ c ∈ chunk_data data parts 10, process_chunk c = none) →
      mainStdout data parts = none) := by
  constructor
  · intro pre bad rest hpre hne hnl hbad
    unfold process_chunk
    rw [processGo_joinLines_then pre _ 0 [] hpre]
    exact processGo_badline rest _ _ hbad hne hnl
  · rintro data parts ⟨c, hc, hcnone⟩
    unfold mainStdout
    rw [collect_eq_none_of_mem process_chunk hc hcnone]

/-- Witness for C6: the buffer `"A;1.0\nBAD\n"` processed as one chunk
fails, and the whole run writes nothing to stdout. -/
theorem claim_c6_witness :
    process_chunk (joinLines [[65, 59, 49, 46, 48]] ++ ([66, 65, 68] ++ 10 :: [])) = none ∧
    mainStdout (joinLines [[65, 59, 49, 46, 48]] ++ ([66, 65, 68] ++ 10 :: [])) 1 = none := by
  have hA := claim_c6_malformed_aborts.1 [[65, 59, 49, 46, 48]] [66, 65, 68] []
    (by decide) (by decide) (by decide) (by decide)
  refine ⟨hA, claim_c6_malformed_aborts.2 _ 1 ⟨_, ?_, hA⟩⟩
  simp [chunk_data, chunk_go]



/-- Claim C3: chunked aggregation agrees with whole-buffer aggregation. -/
theorem claim_c3_split_equiv (data : List Byte) (parts : Nat) (hp : 1 ≤ parts)
    (hwf : WF data) :
    ∃ (results : List (Nat × Table)) (whole : Nat × Table),
      collect process_chunk (chunk_data data parts 10) = some results ∧
      process_chunk data = some whole ∧
      ∀ k : Station, getEntry (mergeTables ((results.map Prod.snd).flatten)) k
        = getEntry whole.2 k := by
  obtain ⟨lines, m, hgood, hdata⟩ := hwf
  obtain ⟨lps, hlps, hcoll⟩ :=
    chunk_tables (parts - 1) (data.length / parts) data lines m hgood hdata
  refine ⟨_, _, hcoll, process_chunk_wf hgood hdata, ?_⟩
  intro k
  have hmap : ((lps.map fun ls => (ls.length, foldUp [] (obsList ls))).map Prod.snd)
      = lps.map (fun ls => foldUp [] (obsList ls)) := by
    rw [List.map_map]
    rfl
  rw [hmap, getEntry_mergeTables]
  have hv : valsFor k ((lps.map (fun ls => foldUp [] (obsList ls))).flatten)
      = ((lps.map (fun ls => foldUp [] (obsList ls))).map (valsFor k)).flatten := by
    unfold valsFor
    rw [List.filterMap_flatten]
  rw [hv, List.map_map]
  have hv2 : ((valsFor k) ∘ fun ls => foldUp [] (obsList ls))
      = fun ls => (statOfv (valsFor k (obsList ls))).toList := by
    funext ls
    simp only [Function.comp]
    rw [valsFor_eq_toList_getEntry _ _ (nodup_keys_foldUp _ _ (by simp)), getEntry_foldUp_nil]
  rw [hv2]
  have hv3 : (lps.map fun ls => (statOfv (valsFor k (obsList ls))).toList)
      = ((lps.map fun ls => valsFor k (obsList ls)).map fun vs => (statOfv vs).toList) := by
    rw [List.map_map]
    rfl
  rw [hv3, foldl_optMergeStep_flatten, optMerge_none_left]
  have hv4 : ((lps.map fun ls => valsFor k (obsList ls)).flatten)
      = valsFor k (obsList lines) := by
    rw [← hlps]
    unfold obsList valsFor
    rw [List.filterMap_flatten, List.filterMap_flatten, List.map_map]
    rfl
  rw [hv4, getEntry_foldUp_nil]



/-- Witness for C3: three records over two stations, split two ways. -/
theorem claim_c3_witness :
    ∃ (results : List (Nat × Table)) (whole : Nat × Table),
      collect process_chunk
        (chunk_data (joinLines [[65, 59, 49, 46, 48], [66, 59, 50, 46, 48],
          [65, 59, 51, 46, 48]]) 2 10) = some results ∧
      process_chunk (joinLines [[65, 59, 49, 46, 48], [66, 59, 50, 46, 48],
        [65, 59, 51, 46, 48]]) = some whole ∧
      ∀ k : Station, getEntry (mergeTables ((results.map Prod.snd).flatten)) k
        = getEntry whole.2 k :=
  claim_c3_split_equiv _ 2 (by decide)
    ⟨[[65, 59, 49, 46, 48], [66, 59, 50, 46, 48], [65, 59, 51, 46, 48]], 0, by decide, by simp⟩

/-- Claim C1 evidence: on the empty input, standard output is
`"Num stations: 0\n"` followed by `"{}\n"` — two lines, the first of
which is the `println!` diagnostic, not the claimed single report
line. -/
theorem claim_c1_stdout_diagnostic :
    mainStdout [] 1
      = some [78, 117, 109, 32, 115, 116, 97, 116, 105, 111, 110, 115, 58, 32,
          48, 10, 123, 125, 10] ∧
    List.count (10 : Byte) [78, 117, 109, 32, 115, 116, 97, 116, 105, 111, 110, 115, 58, 32,
      48, 10, 123, 125, 10] = 2 ∧
    List.head? ([78, 117, 109, 32, 115, 116, 97, 116, 105, 111, 110, 115, 58, 32,
      48, 10, 123, 125, 10] : List Byte) ≠ some 123 := by
  refine ⟨?_, by decide, by decide⟩
  have h2 : process_chunk [] = some (0, []) := processGo_memchr_none [] 0 [] rfl
  have h1 : chunk_data [] 1 10 = [[]] := rfl
  unfold mainStdout
  rw [h1]
  simp only [collect, h2]
  simp [merge_and_sort, mergeTables, sortByKey, numStationsLine, natDec, printOut, printGo]

end BRC
